import Mathlib

/-!
Verification of the set-associative cache simulator (`src/csim.c`).

The C program is shallowly embedded: each struct becomes a Lean structure,
each function a Lean definition, and the per-access mutation of the cache
becomes explicit state passing.  C `long`/`unsigned long` counters are
modelled as `Nat` (no counter in the program can overflow 64 bits on the
trace lengths it handles, and the single subtraction on `dirty_bytes` is
guarded by the dirty-sum invariant proved below); the 64-bit address
arithmetic in `main` is modelled with an explicit `% 2 ^ 64` at the one
left shift where unsigned wrap-around matters.
-/

namespace Csim

/-- Embedding of `struct Line`: `dirtyBit`, `tagBit`, `lruCounter`. -/
structure Line where
  dirtyBit : Nat
  tagBit : Nat
  lruCounter : Nat
deriving Repr, DecidableEq

instance : Inhabited Line := ⟨⟨0, 0, 0⟩⟩

/-- Embedding of `struct Set`: `num` lines in use, `capacity` (= E), and the
line array (the C array of `E` pointers becomes a list of length `E`). -/
structure SetC where
  num : Nat
  capacity : Nat
  lines : List Line
deriving Repr, DecidableEq

/-- Embedding of `struct Cache`.  As in the C source, the field `s` stores the
NUMBER of sets (`cache->s = 1L << s`), not the bit width. -/
structure Cache where
  s : Nat
  E : Nat
  opCounter : Nat
  sets : List SetC
deriving Repr, DecidableEq

/-- Embedding of `csim_stats_t` (fields zero-initialised in `main`). -/
structure Stats where
  hits : Nat
  misses : Nat
  evictions : Nat
  dirty_bytes : Nat
  dirty_evictions : Nat
deriving Repr, DecidableEq

/-- The all-zero statistics record set up at the top of `main`. -/
def initStats : Stats := ⟨0, 0, 0, 0, 0⟩

/-- `newLine`: build a line from a dirty bit, tag and LRU stamp. -/
def newLine (dirtyBit tagBit lruCount : Nat) : Line :=
  ⟨dirtyBit, tagBit, lruCount⟩

/-- `newSet`: an empty set of the given capacity, all lines `newLine 0 0 0`. -/
def newSet (capacity : Nat) : SetC :=
  ⟨0, capacity, List.replicate capacity (newLine 0 0 0)⟩

/-- `createCache s E`: `2 ^ s` fresh sets of capacity `E`, `opCounter = 0`. -/
def createCache (s E : Nat) : Cache :=
  ⟨2 ^ s, E, 0, List.replicate (2 ^ s) (newSet E)⟩

/-- `setEmpty`: the set uses no lines. -/
def setEmpty (set : SetC) : Bool :=
  set.num = 0

/-- One iteration of the scan loop shared by the two hit-check loops in
`addToSet` (lines 123-134 and 153-164 of `csim.c`): on a tag match the
line's `lruCounter` is refreshed and, if the line was clean and the access
is a store, its dirty bit is set. -/
def hitUpdate (opCounter dirtyBit tagBit : Nat) (l : Line) : Line :=
  if tagBit = l.tagBit then
    if l.dirtyBit = 0 then
      if 0 < dirtyBit then
        { l with lruCounter := opCounter, dirtyBit := dirtyBit }
      else
        { l with lruCounter := opCounter }
    else
      { l with lruCounter := opCounter }
  else l

/-- The bytes added to `dirty_bytes` by the hit-check loop: `2 ^ b` for each
scanned line that matches the tag while clean, when the access is a store. -/
def hitBytes (dirtyBit tagBit b : Nat) (ls : List Line) : Nat :=
  (ls.map (fun l =>
    if tagBit = l.tagBit ∧ l.dirtyBit = 0 ∧ 0 < dirtyBit then 2 ^ b else 0)).sum

/-- The `isIn` flag computed by the hit-check loop. -/
def anyMatch (tagBit : Nat) (ls : List Line) : Bool :=
  ls.any (fun l => tagBit = l.tagBit)

/-- The line array after the hit-check loop has scanned positions
`[0, num)`: the scanned prefix is rewritten by `hitUpdate`, the rest of the
array is untouched. -/
def hitLines (opCounter dirtyBit tagBit num : Nat) (ls : List Line) : List Line :=
  (ls.take num).map (hitUpdate opCounter dirtyBit tagBit) ++ ls.drop num

/-- The loop of `indexLRU`: running minimum and its index, both seeded with
`-1` (C `long min = -1; int index = -1`); a line replaces the minimum only
when its counter is strictly smaller, so ties keep the earlier index. -/
def indexLRUAux : List Line → Nat → Int → Int → Int
  | [], _, _, index => index
  | l :: ls, i, min, index =>
    if min < 0 then
      indexLRUAux ls (i + 1) (l.lruCounter : Int) (i : Int)
    else if (l.lruCounter : Int) < min then
      indexLRUAux ls (i + 1) (l.lruCounter : Int) (i : Int)
    else
      indexLRUAux ls (i + 1) min index

/-- `indexLRU`: index of the LRU victim, scanning positions `[0, num)`. -/
def indexLRU (set : SetC) : Int :=
  indexLRUAux (set.lines.take set.num) 0 (-1) (-1)

/-- `addToSet` (lines 106-187 of `csim.c`), minus the trailing
`cache->opCounter += 1` which is performed by `accessCache` below: takes the
statistics, the cache's current `opCounter`, the target set and the access's
dirty bit, tag and block-offset width; returns the updated statistics and
set.  The three branches are: empty set, set with spare capacity, full set. -/
def addToSet (results : Stats) (opCounter : Nat) (set : SetC)
    (dirtyBit tagBit b : Nat) : Stats × SetC :=
  if setEmpty set then
    ({ results with
        misses := results.misses + 1,
        dirty_bytes := results.dirty_bytes + if 0 < dirtyBit then 2 ^ b else 0 },
     { set with
        lines := set.lines.set 0 (newLine dirtyBit tagBit opCounter),
        num := set.num + 1 })
  else if set.num ≠ set.capacity then
    let scanned := set.lines.take set.num
    if anyMatch tagBit scanned then
      ({ results with
          hits := results.hits + 1,
          dirty_bytes := results.dirty_bytes + hitBytes dirtyBit tagBit b scanned },
       { set with lines := hitLines opCounter dirtyBit tagBit set.num set.lines })
    else
      ({ results with
          misses := results.misses + 1,
          dirty_bytes := results.dirty_bytes + if 0 < dirtyBit then 2 ^ b else 0 },
       { set with
          lines := (hitLines opCounter dirtyBit tagBit set.num set.lines).set
            set.num (newLine dirtyBit tagBit opCounter),
          num := set.num + 1 })
  else
    let scanned := set.lines.take set.num
    if anyMatch tagBit scanned then
      ({ results with
          hits := results.hits + 1,
          dirty_bytes := results.dirty_bytes + hitBytes dirtyBit tagBit b scanned },
       { set with lines := hitLines opCounter dirtyBit tagBit set.num set.lines })
    else
      let lines1 := hitLines opCounter dirtyBit tagBit set.num set.lines
      let evictIndex := (indexLRU { set with lines := lines1 }).toNat
      let victim := lines1.getD evictIndex default
      ({ results with
          misses := results.misses + 1,
          evictions := results.evictions + 1,
          dirty_bytes :=
            (results.dirty_bytes - if 0 < victim.dirtyBit then 2 ^ b else 0) +
              if 0 < dirtyBit then 2 ^ b else 0,
          dirty_evictions :=
            results.dirty_evictions + if 0 < victim.dirtyBit then 2 ^ b else 0 },
       { set with lines := lines1.set evictIndex (newLine dirtyBit tagBit opCounter) })

/-- One call of `addToSet` on the set at `setIdx`, together with the
`cache->opCounter += 1` that ends the C function. -/
def accessCache (results : Stats) (cache : Cache) (setIdx dirtyBit tagBit b : Nat) :
    Stats × Cache :=
  let set := cache.sets.getD setIdx (newSet 0)
  let r := addToSet results cache.opCounter set dirtyBit tagBit b
  (r.1, { cache with sets := cache.sets.set setIdx r.2, opCounter := cache.opCounter + 1 })

/-- The set-index computation in `main` (lines 253-257): for `s = 0` the set
is `0`; otherwise `address >> b << (64 - s) >> (64 - s)` on a 64-bit
unsigned, so the left shift is reduced `% 2 ^ 64`. -/
def setIndexOf (address b s : Nat) : Nat :=
  if s = 0 then 0
  else (((address >>> b) <<< (64 - s)) % 2 ^ 64) >>> (64 - s)

/-- The tag computation in `main` (line 258): `address >> (b + s)`. -/
def tagOf (address b s : Nat) : Nat :=
  address >>> (b + s)

/-- The body of the trace-replay loop in `main` (lines 246-266): decompose
the address, then call `addToSet` with dirty bit 1 for a store (`op = 'S'`)
and 0 otherwise. -/
def processRecord (results : Stats) (cache : Cache) (op : Char)
    (address b s : Nat) : Stats × Cache :=
  let set := setIndexOf address b s
  let tag := tagOf address b s
  if op = 'S' then accessCache results cache set 1 tag b
  else accessCache results cache set 0 tag b

/-- States of the simulator reachable from start-up with parameters
`s`, `E`, `b`: the zeroed statistics with a fresh cache, closed under
processing one trace record (any operation byte, any address). -/
inductive Reachable (s E b : Nat) : Stats × Cache → Prop
  | init : Reachable s E b (initStats, createCache s E)
  | step (st : Stats × Cache) (op : Char) (address : Nat) :
      Reachable s E b st → Reachable s E b (processRecord st.1 st.2 op address b s)

/-! ### Basic list-access lemmas -/

lemma getD_set_self {α : Type} {l : List α} {i : Nat} {x d : α} (h : i < l.length) :
    (l.set i x).getD i d = x := by
  simp [List.getD_eq_getElem?_getD, List.getElem?_set_self h]

lemma getD_set_ne {α : Type} {l : List α} {i j : Nat} {x d : α} (h : i ≠ j) :
    (l.set i x).getD j d = l.getD j d := by
  simp [List.getD_eq_getElem?_getD, List.getElem?_set_ne h]

lemma getD_eq_getElem {α : Type} {l : List α} {j : Nat} {d : α} (h : j < l.length) :
    l.getD j d = l[j] := by
  simp [List.getD_eq_getElem?_getD, List.getElem?_eq_getElem h]

lemma getD_mem' {α : Type} {l : List α} {j : Nat} {d : α} (h : j < l.length) :
    l.getD j d ∈ l := by
  rw [getD_eq_getElem h]
  exact List.getElem_mem h

lemma sum_map_set {α : Type} (f : α → Nat) :
    ∀ (l : List α) (k : Nat) (x d : α), k < l.length →
      ((l.set k x).map f).sum + f (l.getD k d) = (l.map f).sum + f x
  | [], k, x, d, hk => by simp at hk
  | a :: l, 0, x, d, hk => by
    simp only [List.set_cons_zero, List.map_cons, List.sum_cons, List.getD_cons_zero]
    omega
  | a :: l, k + 1, x, d, hk => by
    simp only [List.set_cons_succ, List.map_cons, List.sum_cons, List.getD_cons_succ]
    have := sum_map_set f l k x d (by simpa using hk)
    omega

lemma sum_map_add (f g : Line → Nat) :
    ∀ ls : List Line,
      (ls.map (fun l => f l + g l)).sum = (ls.map f).sum + (ls.map g).sum
  | [] => rfl
  | l :: ls => by
    simp only [List.map_cons, List.sum_cons, sum_map_add f g ls]
    omega

lemma take_succ_set {α : Type} :
    ∀ (l : List α) (n : Nat) (x : α), n < l.length →
      (l.set n x).take (n + 1) = l.take n ++ [x]
  | [], n, x, hn => by simp at hn
  | a :: l, 0, x, _ => by simp
  | a :: l, n + 1, x, hn => by
    simp only [List.set_cons_succ, List.take_succ_cons, List.cons_append,
      take_succ_set l n x (by simpa using hn)]

/-! ### Lemmas about the hit-check scan -/

lemma anyMatch_iff {t : Nat} {ls : List Line} :
    anyMatch t ls = true ↔ ∃ l ∈ ls, t = l.tagBit := by
  simp [anyMatch]

lemma anyMatch_eq_false_iff {t : Nat} {ls : List Line} :
    anyMatch t ls = false ↔ ∀ l ∈ ls, t ≠ l.tagBit := by
  simp [anyMatch]

lemma hitUpdate_of_ne {oc db t : Nat} {l : Line} (h : t ≠ l.tagBit) :
    hitUpdate oc db t l = l := by
  simp [hitUpdate, h]

lemma hitUpdate_tagBit (oc db t : Nat) (l : Line) :
    (hitUpdate oc db t l).tagBit = l.tagBit := by
  unfold hitUpdate; split <;> try rfl
  split <;> [skip; rfl]; split <;> rfl

lemma hitUpdate_of_match {oc db t : Nat} {l : Line} (h : t = l.tagBit) :
    (hitUpdate oc db t l).lruCounter = oc ∧
      (hitUpdate oc db t l).dirtyBit =
        (if l.dirtyBit = 0 ∧ 0 < db then db else l.dirtyBit) := by
  unfold hitUpdate
  by_cases h1 : l.dirtyBit = 0 <;> by_cases h2 : 0 < db <;> simp [h, h1, h2]

lemma length_hitLines {oc db t n : Nat} {ls : List Line} (h : n ≤ ls.length) :
    (hitLines oc db t n ls).length = ls.length := by
  simp [hitLines, List.length_take, List.length_drop]
  omega

lemma getD_hitLines_lt {oc db t n j : Nat} {ls : List Line} {d : Line}
    (hj : j < n) (hn : n ≤ ls.length) :
    (hitLines oc db t n ls).getD j d = hitUpdate oc db t (ls.getD j d) := by
  have hjl : j < ls.length := lt_of_lt_of_le hj hn
  have hlen : ((ls.take n).map (hitUpdate oc db t)).length = n := by
    simp [List.length_take]; omega
  simp only [hitLines, List.getD_eq_getElem?_getD, List.getElem?_append, hlen, hj,
    if_pos, List.getElem?_map, List.getElem?_take, List.getElem?_eq_getElem hjl]
  rfl

lemma getD_hitLines_ge {oc db t n j : Nat} {ls : List Line} {d : Line}
    (hj : n ≤ j) (hn : n ≤ ls.length) :
    (hitLines oc db t n ls).getD j d = ls.getD j d := by
  have hlen : ((ls.take n).map (hitUpdate oc db t)).length = n := by
    simp [List.length_take]; omega
  have hnj : ¬ j < n := by omega
  simp only [hitLines, List.getD_eq_getElem?_getD, List.getElem?_append, hlen, hnj,
    if_neg, not_false_iff, List.getElem?_drop]
  congr 2
  omega

lemma map_hitUpdate_of_noMatch {oc db t : Nat} :
    ∀ {ls : List Line}, (∀ l ∈ ls, t ≠ l.tagBit) →
      ls.map (hitUpdate oc db t) = ls
  | [], _ => rfl
  | l :: ls, h => by
    rw [List.map_cons, hitUpdate_of_ne (h l (List.mem_cons_self l ls)),
      map_hitUpdate_of_noMatch (fun x hx => h x (List.mem_cons_of_mem l hx))]

lemma hitLines_of_noMatch {oc db t n : Nat} {ls : List Line}
    (hm : anyMatch t (ls.take n) = false) :
    hitLines oc db t n ls = ls := by
  rw [hitLines, map_hitUpdate_of_noMatch (anyMatch_eq_false_iff.mp hm),
    List.take_append_drop]

/-! ### The four control-flow branches of `addToSet` -/

lemma addToSet_emptyCase {r : Stats} {oc : Nat} {set : SetC} {db t b : Nat}
    (h : set.num = 0) :
    addToSet r oc set db t b =
      ({ r with
          misses := r.misses + 1,
          dirty_bytes := r.dirty_bytes + if 0 < db then 2 ^ b else 0 },
       { set with
          lines := set.lines.set 0 (newLine db t oc),
          num := set.num + 1 }) := by
  simp [addToSet, setEmpty, h]

lemma addToSet_hitCase {r : Stats} {oc : Nat} {set : SetC} {db t b : Nat}
    (h0 : set.num ≠ 0) (hm : anyMatch t (set.lines.take set.num) = true) :
    addToSet r oc set db t b =
      ({ r with
          hits := r.hits + 1,
          dirty_bytes := r.dirty_bytes + hitBytes db t b (set.lines.take set.num) },
       { set with lines := hitLines oc db t set.num set.lines }) := by
  have h1 : ¬ (setEmpty set = true) := by simp [setEmpty, h0]
  by_cases hc : set.num = set.capacity
  · simp only [addToSet]
    rw [if_neg h1, if_neg (fun h => h hc), if_pos hm]
  · simp only [addToSet]
    rw [if_neg h1, if_pos hc, if_pos hm]

lemma addToSet_missSpaceCase {r : Stats} {oc : Nat} {set : SetC} {db t b : Nat}
    (h0 : set.num ≠ 0) (hc : set.num ≠ set.capacity)
    (hm : anyMatch t (set.lines.take set.num) = false) :
    addToSet r oc set db t b =
      ({ r with
          misses := r.misses + 1,
          dirty_bytes := r.dirty_bytes + if 0 < db then 2 ^ b else 0 },
       { set with
          lines := set.lines.set set.num (newLine db t oc),
          num := set.num + 1 }) := by
  have h1 : ¬ (setEmpty set = true) := by simp [setEmpty, h0]
  simp only [addToSet]
  rw [if_neg h1, if_pos hc, if_neg (by simp [hm]), hitLines_of_noMatch hm]

lemma addToSet_evictCase {r : Stats} {oc : Nat} {set : SetC} {db t b : Nat}
    (h0 : set.num ≠ 0) (hc : set.num = set.capacity)
    (hm : anyMatch t (set.lines.take set.num) = false) :
    addToSet r oc set db t b =
      ({ r with
          misses := r.misses + 1,
          evictions := r.evictions + 1,
          dirty_bytes :=
            (r.dirty_bytes -
              if 0 < (set.lines.getD (indexLRU set).toNat default).dirtyBit
              then 2 ^ b else 0) +
              if 0 < db then 2 ^ b else 0,
          dirty_evictions :=
            r.dirty_evictions +
              if 0 < (set.lines.getD (indexLRU set).toNat default).dirtyBit
              then 2 ^ b else 0 },
       { set with
          lines := set.lines.set (indexLRU set).toNat (newLine db t oc) }) := by
  have h1 : ¬ (setEmpty set = true) := by simp [setEmpty, h0]
  have hl : hitLines oc db t set.num set.lines = set.lines := hitLines_of_noMatch hm
  simp only [addToSet]
  rw [if_neg h1, if_neg (fun h => h hc), if_neg (by simp [hm]), hl]

/-! ### Characterisation of `indexLRU`: first index of the minimal stamp -/

/-- Reference form of the LRU scan's result: the lowest index at which the
minimal `lruCounter` of the list occurs. -/
def firstArgminIdx : List Line → Nat
  | [] => 0
  | l :: ls =>
    if ls.all (fun x => decide (l.lruCounter ≤ x.lruCounter)) then 0
    else firstArgminIdx ls + 1

lemma indexLRUAux_run (ls : List Line) : ∀ (i m idx : Nat),
    indexLRUAux ls i (m : Int) (idx : Int) =
      if ls.all (fun x => decide (m ≤ x.lruCounter)) then (idx : Int)
      else ((i + firstArgminIdx ls : Nat) : Int) := by
  induction ls with
  | nil => intro i m idx; simp [indexLRUAux]
  | cons l ls ih =>
    intro i m idx
    have hnn : ¬ ((m : Int) < 0) := by
      simp [not_lt]
    by_cases hlt : l.lruCounter < m
    · have hcast : (l.lruCounter : Int) < (m : Int) := by
        exact_mod_cast hlt
      rw [indexLRUAux, if_neg hnn, if_pos hcast, ih]
      have hall : ¬ ((l :: ls).all (fun x => decide (m ≤ x.lruCounter)) = true) := by
        simp only [List.all_cons, Bool.and_eq_true, decide_eq_true_eq]
        intro h
        omega
      rw [if_neg hall, firstArgminIdx]
      by_cases h2 : ls.all (fun x => decide (l.lruCounter ≤ x.lruCounter)) = true
      · rw [if_pos h2, if_pos h2]
        norm_num
      · rw [if_neg h2, if_neg h2]
        congr 1
        omega
    · have hcast : ¬ ((l.lruCounter : Int) < (m : Int)) := by
        exact_mod_cast hlt
      rw [indexLRUAux, if_neg hnn, if_neg hcast, ih]
      by_cases h2 : ls.all (fun x => decide (m ≤ x.lruCounter)) = true
      · rw [if_pos h2, if_pos (by
          simp only [List.all_cons, Bool.and_eq_true, decide_eq_true_eq] at h2 ⊢
          exact ⟨by omega, h2⟩)]
      · have hall : ¬ ((l :: ls).all (fun x => decide (m ≤ x.lruCounter)) = true) := by
          simp only [List.all_cons, Bool.and_eq_true, decide_eq_true_eq] at h2 ⊢
          intro h
          exact h2 h.2
        rw [if_neg h2, if_neg hall, firstArgminIdx]
        have h3 : ¬ (ls.all (fun x => decide (l.lruCounter ≤ x.lruCounter)) = true) := by
          simp only [List.all_eq_true, decide_eq_true_eq] at h2 ⊢
          intro h
          apply h2
          intro x hx
          exact le_trans (by omega) (h x hx)
        rw [if_neg h3]
        congr 1
        omega

/-- From the `-1` seeds, `indexLRU`'s loop computes `firstArgminIdx`. -/
lemma indexLRU_eq_firstArgminIdx {set : SetC} (h : set.lines.take set.num ≠ []) :
    indexLRU set = ((firstArgminIdx (set.lines.take set.num) : Nat) : Int) := by
  rw [indexLRU]
  obtain ⟨l, ls, hls⟩ : ∃ l ls, set.lines.take set.num = l :: ls := by
    cases hx : set.lines.take set.num with
    | nil => exact absurd hx h
    | cons a as => exact ⟨a, as, rfl⟩
  rw [hls, indexLRUAux, if_pos (by norm_num)]
  have h0 : ((0 : Nat) : Int) = (0 : Int) := rfl
  rw [show ((0 : Nat) : Int) = ((0 : Nat) : Int) from rfl, indexLRUAux_run, firstArgminIdx]
  by_cases h2 : ls.all (fun x => decide (l.lruCounter ≤ x.lruCounter)) = true
  · rw [if_pos h2, if_pos h2]
  · rw [if_neg h2, if_neg h2]
    congr 1
    omega

lemma firstArgminIdx_lt_length : ∀ {ls : List Line}, ls ≠ [] →
    firstArgminIdx ls < ls.length
  | [], h => absurd rfl h
  | l :: ls, _ => by
    rw [firstArgminIdx]
    split
    · simp
    · rename_i h2
      have hne : ls ≠ [] := by
        intro h
        subst h
        simp at h2
      have := firstArgminIdx_lt_length hne
      simpa using this

lemma getD_mem {ls : List Line} {j : Nat} {d : Line} (h : j < ls.length) :
    ls.getD j d ∈ ls := by
  rw [getD_eq_getElem h]
  exact List.getElem_mem h

lemma firstArgminIdx_min {d : Line} : ∀ {ls : List Line}, ∀ j < ls.length,
    (ls.getD (firstArgminIdx ls) d).lruCounter ≤ (ls.getD j d).lruCounter
  | [], j, hj => by simp at hj
  | l :: ls, j, hj => by
    rw [firstArgminIdx]
    split
    · rename_i h2
      simp only [List.all_eq_true, decide_eq_true_eq] at h2
      match j with
      | 0 => simp [List.getD]
      | j + 1 =>
        simp only [List.getD_cons_succ, List.getD_cons_zero]
        have hjl : j < ls.length := by simpa using hj
        exact h2 _ (getD_mem hjl)
    · rename_i h2
      simp only [List.all_eq_true, decide_eq_true_eq, not_forall] at h2
      obtain ⟨x, hx, hxl⟩ := h2
      obtain ⟨ix, hix, hxeq⟩ := List.getElem_of_mem hx
      match j with
      | 0 =>
        simp only [List.getD_cons_succ, List.getD_cons_zero]
        calc (ls.getD (firstArgminIdx ls) d).lruCounter
            ≤ (ls.getD ix d).lruCounter := firstArgminIdx_min _ hix
          _ ≤ l.lruCounter := by
              rw [getD_eq_getElem hix, hxeq]
              omega
      | j + 1 =>
        simp only [List.getD_cons_succ]
        exact firstArgminIdx_min _ (by simpa using hj)

lemma firstArgminIdx_first {d : Line} : ∀ {ls : List Line}, ∀ j < firstArgminIdx ls,
    (ls.getD (firstArgminIdx ls) d).lruCounter < (ls.getD j d).lruCounter
  | [], j, hj => by simp [firstArgminIdx] at hj
  | l :: ls, j, hj => by
    rw [firstArgminIdx] at hj ⊢
    split at hj
    · omega
    · rename_i h2
      simp only [List.all_eq_true, decide_eq_true_eq, not_forall] at h2
      obtain ⟨x, hx, hxl⟩ := h2
      obtain ⟨ix, hix, hxeq⟩ := List.getElem_of_mem hx
      rw [if_neg (by
        simp only [List.all_eq_true, decide_eq_true_eq, not_forall]
        exact ⟨x, hx, hxl⟩)]
      match j with
      | 0 =>
        simp only [List.getD_cons_succ, List.getD_cons_zero]
        calc (ls.getD (firstArgminIdx ls) d).lruCounter
            ≤ (ls.getD ix d).lruCounter := firstArgminIdx_min _ hix
          _ < l.lruCounter := by
              rw [getD_eq_getElem hix, hxeq]
              omega
      | j + 1 =>
        simp only [List.getD_cons_succ]
        exact firstArgminIdx_first _ (by omega)

/-! ### Claim C2: address decomposition -/

/-- C2: for every 64-bit address and configured widths `b` and `s`, the
decomposition computed before each access satisfies: if `s = 0` then
`set_index = 0` regardless of the address; otherwise `set_index` equals the
address shifted right by `b` and then masked to its low `s` bits; and the
tag equals the address shifted right by `b + s`. -/
theorem setIndexOf_tagOf_spec (address b s : Nat) (h : address < 2 ^ 64) :
    setIndexOf address b s = (if s = 0 then 0 else (address >>> b) % 2 ^ s) ∧
      tagOf address b s = address >>> (b + s) := by
  refine ⟨?_, rfl⟩
  by_cases hs : s = 0
  · simp [setIndexOf, hs]
  · rw [setIndexOf, if_neg hs, if_neg hs]
    have hx : address >>> b < 2 ^ 64 := by
      rw [Nat.shiftRight_eq_div_pow]
      exact lt_of_le_of_lt (Nat.div_le_self _ _) h
    by_cases h64 : s ≤ 64
    · have hsplit : (2 : Nat) ^ 64 = 2 ^ s * 2 ^ (64 - s) := by
        rw [← pow_add]
        congr 1
        omega
      rw [Nat.shiftLeft_eq, hsplit, Nat.mul_mod_mul_right,
        Nat.shiftRight_eq_div_pow,
        Nat.mul_div_cancel _ (Nat.pos_pow_of_pos _ (by norm_num))]
    · have h0 : 64 - s = 0 := by omega
      rw [h0, Nat.shiftLeft_zero, Nat.shiftRight_zero,
        Nat.mod_eq_of_lt hx,
        Nat.mod_eq_of_lt
          (lt_of_lt_of_le hx (Nat.pow_le_pow_right (by norm_num) (by omega)))]

/-- Witness for C2 at a concrete 64-bit address near the top of the range,
with `s` near 64 (`b = 3`, `s = 59`). -/
theorem setIndexOf_tagOf_spec_witness :
    setIndexOf (2 ^ 63 + 12345) 3 59 =
        (if (59 : Nat) = 0 then 0 else ((2 ^ 63 + 12345) >>> 3) % 2 ^ 59) ∧
      tagOf (2 ^ 63 + 12345) 3 59 = (2 ^ 63 + 12345) >>> (3 + 59) :=
  setIndexOf_tagOf_spec (2 ^ 63 + 12345) 3 59 (by norm_num)

/-! ### Claim C1: LRU eviction on a full-set miss -/

/-- C1: on an access to a full set (`num = capacity`) whose tag matches no
resident line, the victim is the resident line with the smallest
`lruCounter`, ties broken by lowest index; a dirty victim moves
`block_size_bytes = 2 ^ b` from `dirty_bytes` to `dirty_evictions`; the
victim's tag, dirty state and stamp are overwritten with the access's
values (adding `2 ^ b` to `dirty_bytes` when the access is a store); and
`misses` and `evictions` each grow by exactly one.  The side condition
`hsum` (implied by the dirty-sum invariant `dirty_bytes_eq_dirtySum` below)
makes the `dirty_bytes` bookkeeping exact rather than truncated. -/
theorem addToSet_evict_spec (results : Stats) (oc : Nat) (set : SetC)
    (db t b : Nat) (v : Nat) (victim : Line)
    (hfull : set.num = set.capacity) (hlen : set.lines.length = set.capacity)
    (hpos : 0 < set.capacity)
    (hmiss : ∀ l ∈ set.lines, l.tagBit ≠ t)
    (hv : v = (indexLRU set).toNat)
    (hvictim : victim = set.lines.getD v default)
    (hsum : 0 < victim.dirtyBit → 2 ^ b ≤ results.dirty_bytes) :
    v < set.capacity
    ∧ (∀ j < set.capacity, victim.lruCounter ≤ (set.lines.getD j default).lruCounter)
    ∧ (∀ j < v, victim.lruCounter < (set.lines.getD j default).lruCounter)
    ∧ (addToSet results oc set db t b).2.lines = set.lines.set v (newLine db t oc)
    ∧ (addToSet results oc set db t b).2.num = set.num
    ∧ (addToSet results oc set db t b).1.dirty_bytes
        + (if 0 < victim.dirtyBit then 2 ^ b else 0)
        = results.dirty_bytes + (if 0 < db then 2 ^ b else 0)
    ∧ (addToSet results oc set db t b).1.dirty_evictions
        = results.dirty_evictions + (if 0 < victim.dirtyBit then 2 ^ b else 0)
    ∧ (addToSet results oc set db t b).1.misses = results.misses + 1
    ∧ (addToSet results oc set db t b).1.evictions = results.evictions + 1
    ∧ (addToSet results oc set db t b).1.hits = results.hits := by
  have htake : set.lines.take set.num = set.lines := by
    rw [hfull, ← hlen, List.take_length]
  have h0 : set.num ≠ 0 := by omega
  have hm : anyMatch t (set.lines.take set.num) = false := by
    rw [anyMatch_eq_false_iff, htake]
    intro l hl
    exact fun he => hmiss l hl he.symm
  have hne : set.lines.take set.num ≠ [] := by
    rw [htake]
    intro hnil
    rw [hnil] at hlen
    simp at hlen
    omega
  have hidx : indexLRU set = ((firstArgminIdx set.lines : Nat) : Int) := by
    rw [indexLRU_eq_firstArgminIdx hne, htake]
  have hvna : v = firstArgminIdx set.lines := by
    rw [hv, hidx, Int.toNat_natCast]
  have hvlt : v < set.capacity := by
    rw [hvna, ← hlen]
    exact firstArgminIdx_lt_length (by intro hnil; rw [htake] at hne; exact hne hnil)
  have heq := @addToSet_evictCase results oc set db t b h0 hfull hm
  have hvic' : set.lines.getD (indexLRU set).toNat default = victim := by
    rw [hvictim, hv]
  refine ⟨hvlt, ?_, ?_, ?_, ?_, ?_, ?_, ?_, ?_, ?_⟩
  · intro j hj
    rw [hvictim, hvna]
    exact firstArgminIdx_min j (by omega)
  · intro j hj
    rw [hvictim, hvna]
    exact firstArgminIdx_first j (by rw [← hvna]; omega)
  · rw [heq, hv]
  · rw [heq]
  · rw [heq]
    simp only [hvic']
    have hle : (if 0 < victim.dirtyBit then 2 ^ b else 0) ≤ results.dirty_bytes := by
      split
      · exact hsum (by assumption)
      · omega
    omega
  · rw [heq]
    simp only [hvic']
  · rw [heq]
  · rw [heq]
  · rw [heq]

/-- Witness for C1: a full 2-way set holding a clean line (tag 5, stamp 3)
and a dirty line (tag 7, stamp 1); a store with fresh tag 9 evicts the
dirty stamp-1 line at index 1. -/
theorem addToSet_evict_spec_witness :
    (1 : Nat) < 2
    ∧ (addToSet ⟨0, 0, 0, 1, 0⟩ 10 ⟨2, 2, [⟨0, 5, 3⟩, ⟨1, 7, 1⟩]⟩ 1 9 0).2.lines
        = [⟨0, 5, 3⟩, ⟨1, 7, 1⟩].set 1 (newLine 1 9 10)
    ∧ (addToSet ⟨0, 0, 0, 1, 0⟩ 10 ⟨2, 2, [⟨0, 5, 3⟩, ⟨1, 7, 1⟩]⟩ 1 9 0).1.dirty_bytes
        + (if 0 < (⟨1, 7, 1⟩ : Line).dirtyBit then 2 ^ 0 else 0)
        = 1 + (if 0 < (1 : Nat) then 2 ^ 0 else 0)
    ∧ (addToSet ⟨0, 0, 0, 1, 0⟩ 10 ⟨2, 2, [⟨0, 5, 3⟩, ⟨1, 7, 1⟩]⟩ 1 9 0).1.dirty_evictions
        = 0 + (if 0 < (⟨1, 7, 1⟩ : Line).dirtyBit then 2 ^ 0 else 0)
    ∧ (addToSet ⟨0, 0, 0, 1, 0⟩ 10 ⟨2, 2, [⟨0, 5, 3⟩, ⟨1, 7, 1⟩]⟩ 1 9 0).1.misses = 0 + 1
    ∧ (addToSet ⟨0, 0, 0, 1, 0⟩ 10 ⟨2, 2, [⟨0, 5, 3⟩, ⟨1, 7, 1⟩]⟩ 1 9 0).1.evictions = 0 + 1 := by
  have h := addToSet_evict_spec ⟨0, 0, 0, 1, 0⟩ 10 ⟨2, 2, [⟨0, 5, 3⟩, ⟨1, 7, 1⟩]⟩
    1 9 0 1 ⟨1, 7, 1⟩ rfl rfl (by norm_num) (by decide) (by decide) (by decide)
    (fun _ => by norm_num)
  exact ⟨h.1, h.2.2.2.1, h.2.2.2.2.2.1, h.2.2.2.2.2.2.1,
    h.2.2.2.2.2.2.2.1, h.2.2.2.2.2.2.2.2.1⟩

/-! ### Claim C4: hit behaviour -/

lemma getD_take {ls : List Line} {n i : Nat} {d : Line} (hi : i < n) :
    (ls.take n).getD i d = ls.getD i d := by
  simp [List.getD_eq_getElem?_getD, List.getElem?_take, hi]

lemma hitBytes_of_noMatch {db t b : Nat} :
    ∀ {ls : List Line}, (∀ l ∈ ls, t ≠ l.tagBit) → hitBytes db t b ls = 0
  | [], _ => rfl
  | l :: ls, h => by
    rw [hitBytes, List.map_cons, List.sum_cons,
      if_neg (fun hc => h l (List.mem_cons_self l ls) hc.1),
      ← hitBytes, hitBytes_of_noMatch (fun x hx => h x (List.mem_cons_of_mem l hx))]

/-- With a unique matching line at index `i`, the scan's dirty-byte charge is
`2 ^ b` exactly when that line is clean and the access is a store. -/
lemma hitBytes_of_uniqueMatch {db t b : Nat} {d : Line} :
    ∀ (ls : List Line) (i : Nat), i < ls.length →
      t = (ls.getD i d).tagBit →
      (∀ j < ls.length, t = (ls.getD j d).tagBit → j = i) →
      hitBytes db t b ls =
        if (ls.getD i d).dirtyBit = 0 ∧ 0 < db then 2 ^ b else 0
  | [], i, hi, _, _ => by simp at hi
  | l :: ls, 0, _, hmatch, huniq => by
    simp only [List.getD_cons_zero] at hmatch ⊢
    have hrest : ∀ x ∈ ls, t ≠ x.tagBit := by
      intro x hx he
      obtain ⟨ix, hix, hxeq⟩ := List.getElem_of_mem hx
      have := huniq (ix + 1) (by simpa using hix)
        (by rw [List.getD_cons_succ, getD_eq_getElem hix, hxeq]; exact he)
      omega
    rw [hitBytes, List.map_cons, List.sum_cons, ← hitBytes, hitBytes_of_noMatch hrest]
    by_cases hc : l.dirtyBit = 0 ∧ 0 < db
    · rw [if_pos ⟨hmatch, hc.1, hc.2⟩, if_pos hc]
      omega
    · rw [if_neg (fun h => hc ⟨h.2.1, h.2.2⟩), if_neg hc]
  | l :: ls, i + 1, hi, hmatch, huniq => by
    simp only [List.getD_cons_succ] at hmatch ⊢
    have hhead : ¬ (t = l.tagBit) := by
      intro he
      have := huniq 0 (by simp) (by simpa using he)
      omega
    rw [hitBytes, List.map_cons, List.sum_cons, ← hitBytes,
      if_neg (fun hc => hhead hc.1),
      hitBytes_of_uniqueMatch ls i (by simpa using hi) hmatch
        (fun j hj hm => by
          have := huniq (j + 1) (by simpa using hj) (by simpa using hm)
          omega)]
    omega

/-- C4: an access whose tag matches a resident line (uniquely, as the set
invariant guarantees) is a hit: the line's `lruCounter` is refreshed to the
current global counter, its tag is unchanged, a store on a clean line sets
the dirty bit and charges `2 ^ b` to `dirty_bytes`, any other combination
changes no accounting, `hits` grows by exactly one, the other four counters
are unchanged, and no line is inserted or evicted (`num` and every other
line are untouched). -/
theorem addToSet_hit_spec (results : Stats) (oc : Nat) (set : SetC)
    (db t b i : Nat) (old : Line)
    (hnum : set.num ≤ set.lines.length)
    (hi : i < set.num)
    (hold : old = set.lines.getD i default)
    (hmatch : t = old.tagBit)
    (huniq : ∀ j < set.num, t = (set.lines.getD j default).tagBit → j = i) :
    (addToSet results oc set db t b).1.hits = results.hits + 1
    ∧ (addToSet results oc set db t b).1.misses = results.misses
    ∧ (addToSet results oc set db t b).1.evictions = results.evictions
    ∧ (addToSet results oc set db t b).1.dirty_evictions = results.dirty_evictions
    ∧ (addToSet results oc set db t b).2.num = set.num
    ∧ (addToSet results oc set db t b).2.capacity = set.capacity
    ∧ ((addToSet results oc set db t b).2.lines.getD i default).lruCounter = oc
    ∧ ((addToSet results oc set db t b).2.lines.getD i default).tagBit = old.tagBit
    ∧ (old.dirtyBit = 0 → 0 < db →
        ((addToSet results oc set db t b).2.lines.getD i default).dirtyBit = db
        ∧ (addToSet results oc set db t b).1.dirty_bytes = results.dirty_bytes + 2 ^ b)
    ∧ (¬ (old.dirtyBit = 0 ∧ 0 < db) →
        ((addToSet results oc set db t b).2.lines.getD i default).dirtyBit = old.dirtyBit
        ∧ (addToSet results oc set db t b).1.dirty_bytes = results.dirty_bytes)
    ∧ (∀ j, j ≠ i →
        (addToSet results oc set db t b).2.lines.getD j default
          = set.lines.getD j default) := by
  have h0 : set.num ≠ 0 := by omega
  have htlen : (set.lines.take set.num).length = set.num := by
    rw [List.length_take]
    omega
  have hmA : anyMatch t (set.lines.take set.num) = true := by
    rw [anyMatch_iff]
    refine ⟨set.lines.getD i default, ?_, by rw [← hold]; exact hmatch⟩
    rw [← @getD_take set.lines set.num i default hi]
    exact getD_mem (by omega)
  have heq := @addToSet_hitCase results oc set db t b h0 hmA
  have hline : (addToSet results oc set db t b).2.lines.getD i default
      = hitUpdate oc db t old := by
    rw [heq]
    show (hitLines oc db t set.num set.lines).getD i default = _
    rw [getD_hitLines_lt hi hnum, hold]
  have hbytes : hitBytes db t b (set.lines.take set.num) =
      if old.dirtyBit = 0 ∧ 0 < db then 2 ^ b else 0 := by
    rw [hold]
    have := @hitBytes_of_uniqueMatch db t b default
      (set.lines.take set.num) i (by omega)
      (by rw [getD_take hi, ← hold]; exact hmatch)
      (fun j hj hm => by
        rw [htlen] at hj
        exact huniq j hj (by rwa [getD_take hj] at hm))
    rw [this, getD_take hi]
  have hup := @hitUpdate_of_match oc db t old hmatch
  refine ⟨by rw [heq], by rw [heq], by rw [heq], by rw [heq], by rw [heq],
    by rw [heq], ?_, ?_, ?_, ?_, ?_⟩
  · rw [hline]
    exact hup.1
  · rw [hline, hitUpdate_tagBit]
  · intro hclean hstore
    constructor
    · rw [hline, hup.2, if_pos ⟨hclean, hstore⟩]
    · rw [heq]
      show results.dirty_bytes + hitBytes db t b (set.lines.take set.num) = _
      rw [hbytes, if_pos ⟨hclean, hstore⟩]
  · intro hnc
    constructor
    · rw [hline, hup.2, if_neg hnc]
    · rw [heq]
      show results.dirty_bytes + hitBytes db t b (set.lines.take set.num) = _
      rw [hbytes, if_neg hnc]
      omega
  · intro j hj
    rw [heq]
    show (hitLines oc db t set.num set.lines).getD j default = _
    by_cases hjn : j < set.num
    · rw [getD_hitLines_lt hjn hnum]
      exact hitUpdate_of_ne (fun hc => hj (huniq j hjn hc))
    · exact getD_hitLines_ge (by omega) hnum

/-- Witness for C4: a store hitting the clean resident line (tag 7) at
index 1 of a 3-way set with one free line. -/
theorem addToSet_hit_spec_witness :
    (addToSet ⟨4, 2, 1, 8, 4⟩ 9 ⟨2, 3, [⟨0, 5, 3⟩, ⟨0, 7, 1⟩, ⟨0, 0, 0⟩]⟩ 1 7 2).1.hits
        = 4 + 1
    ∧ (addToSet ⟨4, 2, 1, 8, 4⟩ 9 ⟨2, 3, [⟨0, 5, 3⟩, ⟨0, 7, 1⟩, ⟨0, 0, 0⟩]⟩ 1 7 2).2.num = 2
    ∧ ((addToSet ⟨4, 2, 1, 8, 4⟩ 9 ⟨2, 3, [⟨0, 5, 3⟩, ⟨0, 7, 1⟩, ⟨0, 0, 0⟩]⟩ 1 7 2).2.lines.getD
        1 default).lruCounter = 9
    ∧ ((addToSet ⟨4, 2, 1, 8, 4⟩ 9 ⟨2, 3, [⟨0, 5, 3⟩, ⟨0, 7, 1⟩, ⟨0, 0, 0⟩]⟩ 1 7 2).2.lines.getD
        1 default).dirtyBit = 1
    ∧ (addToSet ⟨4, 2, 1, 8, 4⟩ 9 ⟨2, 3, [⟨0, 5, 3⟩, ⟨0, 7, 1⟩, ⟨0, 0, 0⟩]⟩ 1 7 2).1.dirty_bytes
        = 8 + 2 ^ 2
    ∧ (addToSet ⟨4, 2, 1, 8, 4⟩ 9 ⟨2, 3, [⟨0, 5, 3⟩, ⟨0, 7, 1⟩, ⟨0, 0, 0⟩]⟩ 1 7 2).2.lines.getD
        0 default = ⟨0, 5, 3⟩ := by
  have h := addToSet_hit_spec ⟨4, 2, 1, 8, 4⟩ 9 ⟨2, 3, [⟨0, 5, 3⟩, ⟨0, 7, 1⟩, ⟨0, 0, 0⟩]⟩
    1 7 2 1 ⟨0, 7, 1⟩ (by norm_num) (by norm_num) (by decide) (by decide) (by decide)
  refine ⟨h.1, h.2.2.2.2.1, h.2.2.2.2.2.2.1, (h.2.2.2.2.2.2.2.2.1 rfl (by norm_num)).1,
    (h.2.2.2.2.2.2.2.2.1 rfl (by norm_num)).2, ?_⟩
  have := h.2.2.2.2.2.2.2.2.2.2 0 (by norm_num)
  rw [this]
  rfl

/-! ### Structural well-formedness and its preservation -/

/-- Shape facts established by `createCache` and preserved by every access:
`2 ^ s` sets, each of capacity `E` with a line array of length `E` and at
most `E` lines in use. -/
def WFCache (s E : Nat) (c : Cache) : Prop :=
  c.sets.length = 2 ^ s ∧
    ∀ set ∈ c.sets, set.capacity = E ∧ set.lines.length = E ∧ set.num ≤ E

lemma anyMatch_false_of_not_true {t : Nat} {ls : List Line}
    (h : ¬ anyMatch t ls = true) : anyMatch t ls = false := by
  cases hx : anyMatch t ls
  · rfl
  · exact absurd hx h

/-- How one `addToSet` call changes the set's shape: capacity and array
length are preserved, `num` never decreases, and `num` stays within
capacity. -/
lemma addToSet_shape (r : Stats) (oc : Nat) (set : SetC) (db t b : Nat)
    (hnum : set.num ≤ set.capacity) (hlen : set.lines.length = set.capacity)
    (hpos : 0 < set.capacity) :
    (addToSet r oc set db t b).2.capacity = set.capacity
    ∧ (addToSet r oc set db t b).2.lines.length = set.lines.length
    ∧ set.num ≤ (addToSet r oc set db t b).2.num
    ∧ (addToSet r oc set db t b).2.num ≤ set.capacity := by
  by_cases h0 : set.num = 0
  · rw [addToSet_emptyCase h0]
    exact ⟨rfl, List.length_set .., Nat.le_succ _,
      show set.num + 1 ≤ set.capacity by omega⟩
  · by_cases hm : anyMatch t (set.lines.take set.num) = true
    · rw [addToSet_hitCase h0 hm]
      exact ⟨rfl, length_hitLines (by omega), le_refl _, hnum⟩
    · have hm' := anyMatch_false_of_not_true hm
      by_cases hc : set.num = set.capacity
      · rw [addToSet_evictCase h0 hc hm']
        exact ⟨rfl, List.length_set .., le_refl _, hnum⟩
      · rw [addToSet_missSpaceCase h0 hc hm']
        exact ⟨rfl, List.length_set .., Nat.le_succ _,
          show set.num + 1 ≤ set.capacity by omega⟩

/-- Bound used to pick the target set: the computed set index is always
below the number of sets. -/
lemma setIndexOf_lt (address b s : Nat) : setIndexOf address b s < 2 ^ s := by
  by_cases hs : s = 0
  · simp [setIndexOf, hs]
  · rw [setIndexOf, if_neg hs]
    by_cases h64 : s ≤ 64
    · have hsplit : (2 : Nat) ^ 64 = 2 ^ s * 2 ^ (64 - s) := by
        rw [← pow_add]
        congr 1
        omega
      rw [Nat.shiftLeft_eq, hsplit, Nat.mul_mod_mul_right,
        Nat.shiftRight_eq_div_pow,
        Nat.mul_div_cancel _ (Nat.pos_pow_of_pos _ (by norm_num))]
      exact Nat.mod_lt _ (Nat.pos_pow_of_pos _ (by norm_num))
    · have h0 : 64 - s = 0 := by omega
      rw [h0, Nat.shiftLeft_zero, Nat.shiftRight_zero]
      exact lt_of_lt_of_le
        (Nat.mod_lt _ (by norm_num))
        (Nat.pow_le_pow_right (by norm_num) (by omega))

lemma WFCache_createCache (s E : Nat) : WFCache s E (createCache s E) := by
  refine ⟨by simp [createCache], ?_⟩
  intro set hset
  have := List.eq_of_mem_replicate hset
  subst this
  exact ⟨rfl, by simp [newSet], Nat.zero_le E⟩

/-- One access preserves well-formedness (provided the target index is in
range, which `setIndexOf_lt` guarantees for the driver). -/
lemma WFCache_accessCache {s E : Nat} {c : Cache} (hE : 0 < E)
    (hWF : WFCache s E c) (r : Stats) {setIdx : Nat} (db t b : Nat)
    (hidx : setIdx < c.sets.length) :
    WFCache s E (accessCache r c setIdx db t b).2 := by
  obtain ⟨hlen, hsets⟩ := hWF
  have hset0 := hsets (c.sets.getD setIdx (newSet 0)) (getD_mem' hidx)
  refine ⟨by simpa [accessCache] using hlen, ?_⟩
  intro set hset
  rcases List.mem_or_eq_of_mem_set hset with hmem | heq
  · exact hsets set hmem
  · subst heq
    have := addToSet_shape r c.opCounter (c.sets.getD setIdx (newSet 0)) db t b
      (by omega) (by omega) (by omega)
    refine ⟨by omega, by omega, by omega⟩

/-- Every reachable cache is well-formed. -/
lemma WFCache_reachable {s E b : Nat} (hE : 0 < E) :
    ∀ {st : Stats × Cache}, Reachable s E b st → WFCache s E st.2 := by
  intro st h
  induction h with
  | init => exact WFCache_createCache s E
  | step st op address _ ih =>
    have hidx : setIndexOf address b s < st.2.sets.length := by
      rw [ih.1]
      exact setIndexOf_lt address b s
    simp only [processRecord]
    by_cases hop : op = 'S'
    · rw [if_pos hop]
      exact WFCache_accessCache hE ih st.1 1 (tagOf address b s) b hidx
    · rw [if_neg hop]
      exact WFCache_accessCache hE ih st.1 0 (tagOf address b s) b hidx

/-! ### Claim C3: the dirty-byte sum invariant -/

/-- The dirty-byte contribution of one line: `2 ^ b` when dirty, else 0. -/
def dirtyContribution (b : Nat) (l : Line) : Nat :=
  if 0 < l.dirtyBit then 2 ^ b else 0

/-- Total dirty bytes resident in one set (positions `[0, num)`). -/
def dirtySumSet (b : Nat) (set : SetC) : Nat :=
  ((set.lines.take set.num).map (dirtyContribution b)).sum

/-- Total dirty bytes resident in the whole cache. -/
def dirtySumCache (b : Nat) (c : Cache) : Nat :=
  (c.sets.map (dirtySumSet b)).sum

lemma dirtyContribution_hitUpdate (bb oc db t : Nat) (l : Line) :
    dirtyContribution bb (hitUpdate oc db t l) =
      dirtyContribution bb l +
        (if t = l.tagBit ∧ l.dirtyBit = 0 ∧ 0 < db then 2 ^ bb else 0) := by
  unfold hitUpdate dirtyContribution
  by_cases h1 : t = l.tagBit
  · by_cases h2 : l.dirtyBit = 0
    · by_cases h3 : 0 < db
      · simp only [h1, h2, h3, if_true, if_pos, and_self, ite_true]
        simp [h2]
      · simp [h1, h2, h3]
    · by_cases h3 : 0 < db
      · simp [h1, h2, h3]
      · simp [h1, h2, h3]
  · simp [h1]

lemma take_hitLines {oc db t n : Nat} {ls : List Line} (hn : n ≤ ls.length) :
    (hitLines oc db t n ls).take n = (ls.take n).map (hitUpdate oc db t) := by
  have hlen : ((ls.take n).map (hitUpdate oc db t)).length = n := by
    simp [List.length_take]
    omega
  rw [hitLines]
  exact List.take_left' hlen

/-- One `addToSet` call keeps `dirty_bytes` equal to `D` plus the target
set's dirty sum, for any ambient constant `D` (the dirty sum of all other
sets). -/
lemma addToSet_dirtySum (r : Stats) (oc : Nat) (set : SetC) (db t b : Nat)
    (hnum : set.num ≤ set.capacity) (hlen : set.lines.length = set.capacity)
    (hpos : 0 < set.capacity) (D : Nat)
    (hdb : r.dirty_bytes = D + dirtySumSet b set) :
    (addToSet r oc set db t b).1.dirty_bytes
      = D + dirtySumSet b (addToSet r oc set db t b).2 := by
  by_cases h0 : set.num = 0
  · rw [addToSet_emptyCase h0]
    obtain ⟨a, rest, hal⟩ : ∃ a rest, set.lines = a :: rest := by
      cases hx : set.lines with
      | nil => rw [hx] at hlen; simp at hlen; omega
      | cons a rest => exact ⟨a, rest, rfl⟩
    have hold : dirtySumSet b set = 0 := by
      simp [dirtySumSet, h0]
    have hnew : dirtySumSet b
        { set with lines := set.lines.set 0 (newLine db t oc), num := set.num + 1 }
        = if 0 < db then 2 ^ b else 0 := by
      simp only [dirtySumSet, hal, h0, List.set_cons_zero, List.take_succ_cons,
        List.take_zero, List.map_cons, List.map_nil, List.sum_cons, List.sum_nil]
      simp [dirtyContribution, newLine]
    simp only [hnew]
    omega
  · by_cases hm : anyMatch t (set.lines.take set.num) = true
    · rw [addToSet_hitCase h0 hm]
      have hnle : set.num ≤ set.lines.length := by omega
      have hnew : dirtySumSet b { set with lines := hitLines oc db t set.num set.lines }
          = dirtySumSet b set + hitBytes db t b (set.lines.take set.num) := by
        show (((hitLines oc db t set.num set.lines).take set.num).map
            (dirtyContribution b)).sum
          = dirtySumSet b set + hitBytes db t b (set.lines.take set.num)
        rw [take_hitLines hnle, List.map_map]
        have hcomp :
            (dirtyContribution b ∘ hitUpdate oc db t) =
              fun l => dirtyContribution b l +
                (if t = l.tagBit ∧ l.dirtyBit = 0 ∧ 0 < db then 2 ^ b else 0) := by
          funext l
          exact dirtyContribution_hitUpdate b oc db t l
        rw [hcomp, sum_map_add]
        rfl
      simp only [hnew]
      omega
    · have hm' := anyMatch_false_of_not_true hm
      by_cases hc : set.num = set.capacity
      · rw [addToSet_evictCase h0 hc hm']
        have hnl : set.num = set.lines.length := by omega
        have htake : set.lines.take set.num = set.lines := by
          rw [hnl, List.take_length]
        set v := (indexLRU set).toNat with hv
        have hvlt : v < set.lines.length := by
          have hne : set.lines.take set.num ≠ [] := by
            rw [htake]
            intro hnil
            rw [hnil] at hnl
            simp at hnl
            omega
          rw [hv, indexLRU_eq_firstArgminIdx hne, Int.toNat_natCast, htake]
          exact firstArgminIdx_lt_length (by rw [htake] at hne; exact hne)
        have hnew : dirtySumSet b
              { set with lines := set.lines.set v (newLine db t oc) }
              + dirtyContribution b (set.lines.getD v default)
            = dirtySumSet b set + (if 0 < db then 2 ^ b else 0) := by
          show (((set.lines.set v (newLine db t oc)).take set.num).map
              (dirtyContribution b)).sum
              + dirtyContribution b (set.lines.getD v default)
            = dirtySumSet b set + (if 0 < db then 2 ^ b else 0)
          rw [hnl, ← List.length_set set.lines v (newLine db t oc), List.take_length,
            sum_map_set (dirtyContribution b) set.lines v (newLine db t oc) default hvlt]
          simp only [dirtySumSet, htake]
          simp [dirtyContribution, newLine]
        have hvle : dirtyContribution b (set.lines.getD v default) ≤ dirtySumSet b set := by
          have hmem : dirtyContribution b (set.lines.getD v default)
              ∈ (set.lines.take set.num).map (dirtyContribution b) := by
            rw [htake]
            exact List.mem_map_of_mem _ (getD_mem' hvlt)
          exact List.single_le_sum (fun x _ => Nat.zero_le x) _ hmem
        have hvic : (if 0 < (set.lines.getD v default).dirtyBit then 2 ^ b else 0)
            = dirtyContribution b (set.lines.getD v default) := rfl
        simp only [hvic]
        omega
      · rw [addToSet_missSpaceCase h0 hc hm']
        have hvlt : set.num < set.lines.length := by omega
        have hnew : dirtySumSet b
            { set with
                lines := set.lines.set set.num (newLine db t oc),
                num := set.num + 1 }
            = dirtySumSet b set + (if 0 < db then 2 ^ b else 0) := by
          show (((set.lines.set set.num (newLine db t oc)).take (set.num + 1)).map
              (dirtyContribution b)).sum
            = dirtySumSet b set + (if 0 < db then 2 ^ b else 0)
          rw [take_succ_set set.lines set.num (newLine db t oc) hvlt,
            List.map_append, List.sum_append]
          simp [dirtySumSet, dirtyContribution, newLine]
        simp only [hnew]
        omega

/-- Cache-level version of `addToSet_dirtySum`, following `accessCache`. -/
lemma accessCache_dirtySum {s E : Nat} {c : Cache} (hWF : WFCache s E c)
    (hE : 0 < E) (r : Stats) {setIdx : Nat} (db t b : Nat)
    (hidx : setIdx < c.sets.length)
    (hdb : r.dirty_bytes = dirtySumCache b c) :
    (accessCache r c setIdx db t b).1.dirty_bytes
      = dirtySumCache b (accessCache r c setIdx db t b).2 := by
  obtain ⟨hlen, hsets⟩ := hWF
  have hw := hsets (c.sets.getD setIdx (newSet 0)) (getD_mem' hidx)
  have hdb' : r.dirty_bytes = (c.sets.map (dirtySumSet b)).sum := hdb
  have hle' : dirtySumSet b (c.sets.getD setIdx (newSet 0))
      ≤ (c.sets.map (dirtySumSet b)).sum :=
    List.single_le_sum (fun x _ => Nat.zero_le x) _
      (List.mem_map_of_mem _ (getD_mem' hidx))
  have hstep := addToSet_dirtySum r c.opCounter (c.sets.getD setIdx (newSet 0)) db t b
    (by omega) (by omega) (by omega)
    ((c.sets.map (dirtySumSet b)).sum - dirtySumSet b (c.sets.getD setIdx (newSet 0)))
    (by omega)
  have hsum := sum_map_set (dirtySumSet b) c.sets setIdx
    (addToSet r c.opCounter (c.sets.getD setIdx (newSet 0)) db t b).2 (newSet 0) hidx
  show (addToSet r c.opCounter (c.sets.getD setIdx (newSet 0)) db t b).1.dirty_bytes
    = ((c.sets.set setIdx
        (addToSet r c.opCounter (c.sets.getD setIdx (newSet 0)) db t b).2).map
        (dirtySumSet b)).sum
  omega

/-- C3: after every single access from start-up (not only at the end of a
trace), `dirty_bytes` equals the sum of `block_size_bytes = 2 ^ b` over all
currently-resident dirty lines, across all sets of the cache. -/
theorem dirty_bytes_eq_dirtySum (s E b : Nat) (hE : 0 < E) (st : Stats × Cache)
    (h : Reachable s E b st) :
    st.1.dirty_bytes = dirtySumCache b st.2 := by
  induction h with
  | init =>
    show (0 : Nat) = ((List.replicate (2 ^ s) (newSet E)).map (dirtySumSet b)).sum
    rw [List.map_replicate, List.sum_replicate]
    simp [dirtySumSet, newSet]
  | step st op address hr ih =>
    have hWF := WFCache_reachable hE hr
    have hidx : setIndexOf address b s < st.2.sets.length := by
      rw [hWF.1]
      exact setIndexOf_lt address b s
    simp only [processRecord]
    by_cases hop : op = 'S'
    · rw [if_pos hop]
      exact accessCache_dirtySum hWF hE st.1 1 (tagOf address b s) b hidx ih
    · rw [if_neg hop]
      exact accessCache_dirtySum hWF hE st.1 0 (tagOf address b s) b hidx ih

/-- Witness for C3 after one store on a one-line direct-mapped cache. -/
theorem dirty_bytes_eq_dirtySum_witness :
    (processRecord initStats (createCache 0 1) 'S' 0 3 0).1.dirty_bytes
      = dirtySumCache 3 (processRecord initStats (createCache 0 1) 'S' 0 3 0).2 :=
  dirty_bytes_eq_dirtySum 0 1 3 (by norm_num) _
    (Reachable.step (initStats, createCache 0 1) 'S' 0 Reachable.init)

/-! ### Claim C5: capacity bound and the eviction condition -/

lemma addToSet_evictions_iff (r : Stats) (oc : Nat) (set : SetC) (db t b : Nat)
    (hpos : 0 < set.capacity) :
    ((addToSet r oc set db t b).1.evictions = r.evictions + 1)
      ↔ (set.num = set.capacity ∧ ∀ l ∈ set.lines.take set.num, l.tagBit ≠ t) := by
  by_cases h0 : set.num = 0
  · rw [addToSet_emptyCase h0]
    exact iff_of_false (show r.evictions ≠ r.evictions + 1 by omega)
      (fun ⟨h1, _⟩ => by omega)
  · by_cases hm : anyMatch t (set.lines.take set.num) = true
    · rw [addToSet_hitCase h0 hm]
      refine iff_of_false (show r.evictions ≠ r.evictions + 1 by omega) ?_
      rintro ⟨-, h2⟩
      obtain ⟨l, hl, hlt⟩ := anyMatch_iff.mp hm
      exact h2 l hl hlt.symm
    · have hm' := anyMatch_false_of_not_true hm
      by_cases hc : set.num = set.capacity
      · rw [addToSet_evictCase h0 hc hm']
        exact iff_of_true rfl
          ⟨hc, fun l hl heq => anyMatch_eq_false_iff.mp hm' l hl heq.symm⟩
      · rw [addToSet_missSpaceCase h0 hc hm']
        exact iff_of_false (show r.evictions ≠ r.evictions + 1 by omega)
          (fun ⟨h1, _⟩ => hc h1)

/-- C5: in every reachable state each set satisfies
`0 ≤ occupied_count ≤ E`, and processing an access increments `evictions`
(i.e. causes an eviction) exactly when the target set is full
(`occupied_count = E`) and the access's tag is not resident there. -/
theorem occupancy_bound_eviction_iff (s E b : Nat) (hE : 0 < E)
    (st : Stats × Cache) (h : Reachable s E b st) (op : Char) (address : Nat) :
    (∀ set ∈ st.2.sets, 0 ≤ set.num ∧ set.num ≤ E)
    ∧ ((processRecord st.1 st.2 op address b s).1.evictions = st.1.evictions + 1
        ↔ ((st.2.sets.getD (setIndexOf address b s) (newSet 0)).num = E
           ∧ ∀ l ∈ (st.2.sets.getD (setIndexOf address b s) (newSet 0)).lines.take
               (st.2.sets.getD (setIndexOf address b s) (newSet 0)).num,
               l.tagBit ≠ tagOf address b s)) := by
  have hWF := WFCache_reachable hE h
  have hidx : setIndexOf address b s < st.2.sets.length := by
    rw [hWF.1]
    exact setIndexOf_lt address b s
  have hw := hWF.2 (st.2.sets.getD (setIndexOf address b s) (newSet 0)) (getD_mem' hidx)
  refine ⟨fun set hset => ⟨Nat.zero_le _, (hWF.2 set hset).2.2⟩, ?_⟩
  have hiff := addToSet_evictions_iff st.1 st.2.opCounter
    (st.2.sets.getD (setIndexOf address b s) (newSet 0))
  simp only [processRecord]
  by_cases hop : op = 'S'
  · rw [if_pos hop]
    have := hiff 1 (tagOf address b s) b (by omega)
    rw [hw.1] at this
    exact this
  · rw [if_neg hop]
    have := hiff 0 (tagOf address b s) b (by omega)
    rw [hw.1] at this
    exact this

/-- Witness for C5: after a store fills the single one-line set, a load of
a different tag is an eviction, and the iff's forward use is exercised. -/
theorem occupancy_bound_eviction_iff_witness :
    (processRecord
        (processRecord initStats (createCache 0 1) 'S' 0 0 0).1
        (processRecord initStats (createCache 0 1) 'S' 0 0 0).2 'L' 16 0 0).1.evictions
      = (processRecord initStats (createCache 0 1) 'S' 0 0 0).1.evictions + 1 := by
  have h := (occupancy_bound_eviction_iff 0 1 0 (by norm_num)
    (processRecord initStats (createCache 0 1) 'S' 0 0 0)
    (Reachable.step (initStats, createCache 0 1) 'S' 0 Reachable.init) 'L' 16).2
  exact h.mpr ⟨by decide, by decide⟩

/-! ### Claim C9: every access is exactly one hit or one miss -/

/-- Per-access counter bookkeeping of `addToSet`, with no side conditions:
exactly one of `hits` and `misses` grows by one, and `evictions` can grow
(by one) only on a miss. -/
lemma addToSet_counts (r : Stats) (oc : Nat) (set : SetC) (db t b : Nat) :
    ((addToSet r oc set db t b).1.hits = r.hits + 1
      ∧ (addToSet r oc set db t b).1.misses = r.misses
      ∧ (addToSet r oc set db t b).1.evictions = r.evictions)
    ∨ ((addToSet r oc set db t b).1.hits = r.hits
      ∧ (addToSet r oc set db t b).1.misses = r.misses + 1
      ∧ ((addToSet r oc set db t b).1.evictions = r.evictions
         ∨ (addToSet r oc set db t b).1.evictions = r.evictions + 1)) := by
  by_cases h0 : set.num = 0
  · rw [addToSet_emptyCase h0]
    exact Or.inr ⟨rfl, rfl, Or.inl rfl⟩
  · by_cases hm : anyMatch t (set.lines.take set.num) = true
    · rw [addToSet_hitCase h0 hm]
      exact Or.inl ⟨rfl, rfl, rfl⟩
    · have hm' := anyMatch_false_of_not_true hm
      by_cases hc : set.num = set.capacity
      · rw [addToSet_evictCase h0 hc hm']
        exact Or.inr ⟨rfl, rfl, Or.inr rfl⟩
      · rw [addToSet_missSpaceCase h0 hc hm']
        exact Or.inr ⟨rfl, rfl, Or.inl rfl⟩

/-- `processRecord` bookkeeping: the op counter advances by one and the
counters follow `addToSet_counts`. -/
lemma processRecord_counts (r : Stats) (c : Cache) (op : Char) (address b s : Nat) :
    (processRecord r c op address b s).2.opCounter = c.opCounter + 1
    ∧ (((processRecord r c op address b s).1.hits = r.hits + 1
        ∧ (processRecord r c op address b s).1.misses = r.misses
        ∧ (processRecord r c op address b s).1.evictions = r.evictions)
      ∨ ((processRecord r c op address b s).1.hits = r.hits
        ∧ (processRecord r c op address b s).1.misses = r.misses + 1
        ∧ ((processRecord r c op address b s).1.evictions = r.evictions
           ∨ (processRecord r c op address b s).1.evictions = r.evictions + 1))) := by
  simp only [processRecord]
  by_cases hop : op = 'S'
  · rw [if_pos hop]
    exact ⟨rfl, addToSet_counts r c.opCounter _ 1 (tagOf address b s) b⟩
  · rw [if_neg hop]
    exact ⟨rfl, addToSet_counts r c.opCounter _ 0 (tagOf address b s) b⟩

/-- C9: each access increments exactly one of `hits` and `misses` (never
both, never neither); hence in every reachable state
`hits + misses = access_counter` (the number of accesses processed), and
`evictions` never exceeds `misses`. -/
theorem hits_misses_partition (s E b : Nat) (st : Stats × Cache)
    (h : Reachable s E b st) :
    st.1.hits + st.1.misses = st.2.opCounter
    ∧ st.1.evictions ≤ st.1.misses
    ∧ ∀ (op : Char) (address : Nat),
        ((processRecord st.1 st.2 op address b s).1.hits = st.1.hits + 1
          ∧ (processRecord st.1 st.2 op address b s).1.misses = st.1.misses)
        ∨ ((processRecord st.1 st.2 op address b s).1.hits = st.1.hits
          ∧ (processRecord st.1 st.2 op address b s).1.misses = st.1.misses + 1) := by
  induction h with
  | init =>
    refine ⟨rfl, le_refl 0, fun op address => ?_⟩
    rcases (processRecord_counts initStats (createCache s E) op address b s).2 with
      ⟨h1, h2, _⟩ | ⟨h1, h2, _⟩
    · exact Or.inl ⟨h1, h2⟩
    · exact Or.inr ⟨h1, h2⟩
  | step st op address hr ih =>
    obtain ⟨hop, hcounts⟩ := processRecord_counts st.1 st.2 op address b s
    refine ⟨?_, ?_, fun op' address' => ?_⟩
    · rcases hcounts with ⟨h1, h2, _⟩ | ⟨h1, h2, _⟩ <;> omega
    · rcases hcounts with ⟨h1, h2, h3⟩ | ⟨h1, h2, h3⟩
      · omega
      · rcases h3 with h3 | h3 <;> omega
    · rcases (processRecord_counts (processRecord st.1 st.2 op address b s).1
        (processRecord st.1 st.2 op address b s).2 op' address' b s).2 with
        ⟨h1, h2, _⟩ | ⟨h1, h2, _⟩
      · exact Or.inl ⟨h1, h2⟩
      · exact Or.inr ⟨h1, h2⟩

/-- Witness for C9: one store processed on a fresh cache. -/
theorem hits_misses_partition_witness :
    (processRecord initStats (createCache 2 2) 'S' 21 1 2).1.hits
        + (processRecord initStats (createCache 2 2) 'S' 21 1 2).1.misses
      = (processRecord initStats (createCache 2 2) 'S' 21 1 2).2.opCounter
    ∧ (processRecord initStats (createCache 2 2) 'S' 21 1 2).1.evictions
      ≤ (processRecord initStats (createCache 2 2) 'S' 21 1 2).1.misses :=
  have h := hits_misses_partition 2 2 1
    (processRecord initStats (createCache 2 2) 'S' 21 1 2)
    (Reachable.step (initStats, createCache 2 2) 'S' 21 Reachable.init)
  ⟨h.1, h.2.1⟩

/-! ### Claim C10: occupancy never decreases -/

/-- C10: across one access, no set's `occupied_count` decreases (an
eviction overwrites its victim in place instead of vacating the slot), and
a set that has reached `occupied_count = E` stays at `E`. -/
theorem occupancy_monotone (s E b : Nat) (hE : 0 < E) (st : Stats × Cache)
    (h : Reachable s E b st) (op : Char) (address : Nat) (k : Nat) :
    (st.2.sets.getD k (newSet 0)).num
      ≤ ((processRecord st.1 st.2 op address b s).2.sets.getD k (newSet 0)).num
    ∧ ((st.2.sets.getD k (newSet 0)).num = E →
        ((processRecord st.1 st.2 op address b s).2.sets.getD k (newSet 0)).num = E) := by
  have hWF := WFCache_reachable hE h
  have hidx : setIndexOf address b s < st.2.sets.length := by
    rw [hWF.1]
    exact setIndexOf_lt address b s
  have hmain : ∀ db t : Nat,
      (st.2.sets.getD k (newSet 0)).num
        ≤ ((accessCache st.1 st.2 (setIndexOf address b s) db t b).2.sets.getD k
            (newSet 0)).num
      ∧ ((st.2.sets.getD k (newSet 0)).num = E →
          ((accessCache st.1 st.2 (setIndexOf address b s) db t b).2.sets.getD k
            (newSet 0)).num = E) := by
    intro db t
    by_cases hk : k = setIndexOf address b s
    · rw [hk]
      have hw := hWF.2 (st.2.sets.getD (setIndexOf address b s) (newSet 0))
        (getD_mem' hidx)
      have hshape := addToSet_shape st.1 st.2.opCounter
        (st.2.sets.getD (setIndexOf address b s) (newSet 0)) db t b
        (by omega) (by omega) (by omega)
      have hget : (accessCache st.1 st.2 (setIndexOf address b s) db t b).2.sets.getD
            (setIndexOf address b s) (newSet 0)
          = (addToSet st.1 st.2.opCounter
              (st.2.sets.getD (setIndexOf address b s) (newSet 0)) db t b).2 :=
        getD_set_self (by simpa using hidx)
      rw [hget]
      exact ⟨hshape.2.2.1, fun hnumE => by omega⟩
    · have hget : (accessCache st.1 st.2 (setIndexOf address b s) db t b).2.sets.getD k
          (newSet 0) = st.2.sets.getD k (newSet 0) :=
        getD_set_ne (fun he => hk he.symm)
      rw [hget]
      exact ⟨le_refl _, fun hnumE => hnumE⟩
  simp only [processRecord]
  by_cases hop : op = 'S'
  · rw [if_pos hop]
    exact hmain 1 (tagOf address b s)
  · rw [if_neg hop]
    exact hmain 0 (tagOf address b s)

/-- Witness for C10: a direct-mapped set already full stays full across an
eviction. -/
theorem occupancy_monotone_witness :
    ((processRecord initStats (createCache 0 1) 'S' 0 0 0).2.sets.getD 0 (newSet 0)).num = 1
    ∧ ((processRecord
          (processRecord initStats (createCache 0 1) 'S' 0 0 0).1
          (processRecord initStats (createCache 0 1) 'S' 0 0 0).2
          'L' 16 0 0).2.sets.getD 0 (newSet 0)).num = 1 := by
  have h := occupancy_monotone 0 1 0 (by norm_num)
    (processRecord initStats (createCache 0 1) 'S' 0 0 0)
    (Reachable.step (initStats, createCache 0 1) 'S' 0 Reachable.init) 'L' 16 0
  have h1 : ((processRecord initStats (createCache 0 1) 'S' 0 0 0).2.sets.getD 0
      (newSet 0)).num = 1 := by decide
  exact ⟨h1, h.2 h1⟩

/-! ### Claim C7: the global access counter and the stamps it hands out -/

lemma getD_set_cases {ls : List Line} {pos j : Nat} {x d : Line}
    (hch : (ls.set pos x).getD j d ≠ ls.getD j d) :
    (ls.set pos x).getD j d = x := by
  by_cases hj : j = pos
  · subst hj
    by_cases hl : j < ls.length
    · exact getD_set_self hl
    · rw [List.set_eq_of_length_le (by omega)] at hch
      exact absurd rfl hch
  · exact absurd (getD_set_ne (fun he => hj he.symm)) hch

/-- Any line that one `addToSet` call changes is stamped with the
`opCounter` value the call received. -/
lemma addToSet_stamp (r : Stats) (oc : Nat) (set : SetC) (db t b : Nat)
    (hnum : set.num ≤ set.capacity) (hlen : set.lines.length = set.capacity)
    (j : Nat)
    (hchange : (addToSet r oc set db t b).2.lines.getD j default
      ≠ set.lines.getD j default) :
    ((addToSet r oc set db t b).2.lines.getD j default).lruCounter = oc := by
  have hnle : set.num ≤ set.lines.length := by omega
  by_cases h0 : set.num = 0
  · rw [addToSet_emptyCase h0] at hchange ⊢
    rw [getD_set_cases hchange]
    rfl
  · by_cases hm : anyMatch t (set.lines.take set.num) = true
    · rw [addToSet_hitCase h0 hm] at hchange ⊢
      by_cases hj : j < set.num
      · have hgl := @getD_hitLines_lt oc db t set.num j set.lines default hj hnle
        show ((hitLines oc db t set.num set.lines).getD j default).lruCounter = oc
        rw [hgl]
        by_cases hmatch : t = (set.lines.getD j default).tagBit
        · exact (hitUpdate_of_match hmatch).1
        · rw [hitUpdate_of_ne hmatch] at hgl
          exact absurd hgl hchange
      · have hge := @getD_hitLines_ge oc db t set.num j set.lines default
          (Nat.le_of_not_lt hj) hnle
        exact absurd hge hchange
    · have hm' := anyMatch_false_of_not_true hm
      by_cases hc : set.num = set.capacity
      · rw [addToSet_evictCase h0 hc hm'] at hchange ⊢
        rw [getD_set_cases hchange]
        rfl
      · rw [addToSet_missSpaceCase h0 hc hm'] at hchange ⊢
        rw [getD_set_cases hchange]
        rfl

/-- C7: each processed access advances the cache's global counter by
exactly one (so it is strictly increasing across accesses), the counter of
a fresh cache is 0 (so the first access is stamped 0), and whatever line
the access writes receives the counter's value from *before* the
increment as its `lruCounter` stamp. -/
theorem access_counter_stamp (r : Stats) (c : Cache) (setIdx db t b s E : Nat)
    (hnum : (c.sets.getD setIdx (newSet 0)).num
      ≤ (c.sets.getD setIdx (newSet 0)).capacity)
    (hlen : (c.sets.getD setIdx (newSet 0)).lines.length
      = (c.sets.getD setIdx (newSet 0)).capacity) :
    (accessCache r c setIdx db t b).2.opCounter = c.opCounter + 1
    ∧ (createCache s E).opCounter = 0
    ∧ ∀ j : Nat,
        ((accessCache r c setIdx db t b).2.sets.getD setIdx (newSet 0)).lines.getD
            j default
          ≠ (c.sets.getD setIdx (newSet 0)).lines.getD j default →
        (((accessCache r c setIdx db t b).2.sets.getD setIdx (newSet 0)).lines.getD
            j default).lruCounter = c.opCounter := by
  refine ⟨rfl, rfl, fun j hchange => ?_⟩
  by_cases hidx : setIdx < c.sets.length
  · have hget : (accessCache r c setIdx db t b).2.sets.getD setIdx (newSet 0)
        = (addToSet r c.opCounter (c.sets.getD setIdx (newSet 0)) db t b).2 :=
      getD_set_self (by simpa using hidx)
    rw [hget] at hchange ⊢
    exact addToSet_stamp r c.opCounter _ db t b hnum hlen j hchange
  · have hnoop : (accessCache r c setIdx db t b).2.sets.getD setIdx (newSet 0)
        = c.sets.getD setIdx (newSet 0) := by
      show (c.sets.set setIdx _).getD setIdx (newSet 0) = _
      rw [List.set_eq_of_length_le (by omega)]
    rw [hnoop] at hchange
    exact absurd rfl hchange

/-- Witness for C7: the first store on a fresh one-set cache is stamped
with counter value 0, and the counter advances to 1. -/
theorem access_counter_stamp_witness :
    (accessCache initStats (createCache 0 1) 0 1 0 0).2.opCounter
        = (createCache 0 1).opCounter + 1
    ∧ (createCache 0 1).opCounter = 0
    ∧ (((accessCache initStats (createCache 0 1) 0 1 0 0).2.sets.getD 0
          (newSet 0)).lines.getD 0 default).lruCounter = (createCache 0 1).opCounter := by
  have h := access_counter_stamp initStats (createCache 0 1) 0 1 0 0 0 1
    (by decide) (by decide)
  exact ⟨h.1, h.2.1, h.2.2 0 (by decide)⟩

/-! ### Claim C8: the frame of one access -/

/-- One `addToSet` call touches at most one line position: there is an
index `jT` such that every other position of the target set's line array
is unchanged.  The uniqueness hypothesis (no duplicate resident tags,
which holds in every reachable state) pins the hit case to one line. -/
lemma addToSet_frame (r : Stats) (oc : Nat) (set : SetC) (db t b : Nat)
    (hnum : set.num ≤ set.capacity) (hlen : set.lines.length = set.capacity)
    (huniq : ∀ i j, i < set.num → j < set.num →
      t = (set.lines.getD i default).tagBit →
      t = (set.lines.getD j default).tagBit → i = j) :
    ∃ jT : Nat, ∀ j, j ≠ jT →
      (addToSet r oc set db t b).2.lines.getD j default
        = set.lines.getD j default := by
  have hnle : set.num ≤ set.lines.length := by omega
  by_cases h0 : set.num = 0
  · rw [addToSet_emptyCase h0]
    exact ⟨0, fun j hj => getD_set_ne (fun he => hj he.symm)⟩
  · by_cases hm : anyMatch t (set.lines.take set.num) = true
    · obtain ⟨l, hl, hlt⟩ := anyMatch_iff.mp hm
      obtain ⟨i0, hi0, heq⟩ := List.getElem_of_mem hl
      have hi0n : i0 < set.num := by
        have := hi0
        simp only [List.length_take] at this
        omega
      have hmatch0 : t = (set.lines.getD i0 default).tagBit := by
        rw [← @getD_take set.lines set.num i0 default hi0n,
          getD_eq_getElem hi0, heq]
        exact hlt
      rw [addToSet_hitCase h0 hm]
      refine ⟨i0, fun j hj => ?_⟩
      show (hitLines oc db t set.num set.lines).getD j default = set.lines.getD j default
      by_cases hjn : j < set.num
      · rw [getD_hitLines_lt hjn hnle]
        refine hitUpdate_of_ne (fun hmatch => hj ?_)
        exact huniq j i0 hjn hi0n hmatch hmatch0
      · exact getD_hitLines_ge (Nat.le_of_not_lt hjn) hnle
    · have hm' := anyMatch_false_of_not_true hm
      by_cases hc : set.num = set.capacity
      · rw [addToSet_evictCase h0 hc hm']
        exact ⟨(indexLRU set).toNat, fun j hj => getD_set_ne (fun he => hj he.symm)⟩
      · rw [addToSet_missSpaceCase h0 hc hm']
        exact ⟨set.num, fun j hj => getD_set_ne (fun he => hj he.symm)⟩

/-- C8: one access changes nothing but the touched line, the target set's
`num`, the cache's `opCounter` and the statistics: the configuration
fields (`s`, `E`) are untouched, every other set is untouched, the target
set's capacity is untouched, and all but (at most) one line of the target
set are untouched. -/
theorem access_frame_spec (r : Stats) (c : Cache) (setIdx db t b : Nat)
    (hnum : (c.sets.getD setIdx (newSet 0)).num
      ≤ (c.sets.getD setIdx (newSet 0)).capacity)
    (hlen : (c.sets.getD setIdx (newSet 0)).lines.length
      = (c.sets.getD setIdx (newSet 0)).capacity)
    (huniq : ∀ i j, i < (c.sets.getD setIdx (newSet 0)).num →
      j < (c.sets.getD setIdx (newSet 0)).num →
      t = ((c.sets.getD setIdx (newSet 0)).lines.getD i default).tagBit →
      t = ((c.sets.getD setIdx (newSet 0)).lines.getD j default).tagBit → i = j) :
    (accessCache r c setIdx db t b).2.s = c.s
    ∧ (accessCache r c setIdx db t b).2.E = c.E
    ∧ (∀ k, k ≠ setIdx →
        (accessCache r c setIdx db t b).2.sets.getD k (newSet 0)
          = c.sets.getD k (newSet 0))
    ∧ ((accessCache r c setIdx db t b).2.sets.getD setIdx (newSet 0)).capacity
        = (c.sets.getD setIdx (newSet 0)).capacity
    ∧ ∃ jT : Nat, ∀ j, j ≠ jT →
        ((accessCache r c setIdx db t b).2.sets.getD setIdx (newSet 0)).lines.getD
            j default
          = (c.sets.getD setIdx (newSet 0)).lines.getD j default := by
  have hother : ∀ k, k ≠ setIdx →
      (accessCache r c setIdx db t b).2.sets.getD k (newSet 0)
        = c.sets.getD k (newSet 0) :=
    fun k hk => getD_set_ne (fun he => hk he.symm)
  by_cases hidx : setIdx < c.sets.length
  · have hget : (accessCache r c setIdx db t b).2.sets.getD setIdx (newSet 0)
        = (addToSet r c.opCounter (c.sets.getD setIdx (newSet 0)) db t b).2 :=
      getD_set_self (by simpa using hidx)
    refine ⟨rfl, rfl, hother, ?_, ?_⟩
    · rw [hget]
      by_cases h0 : (c.sets.getD setIdx (newSet 0)).num = 0
      · rw [addToSet_emptyCase h0]
      · by_cases hm : anyMatch t ((c.sets.getD setIdx (newSet 0)).lines.take
            (c.sets.getD setIdx (newSet 0)).num) = true
        · rw [addToSet_hitCase h0 hm]
        · have hm' := anyMatch_false_of_not_true hm
          by_cases hc : (c.sets.getD setIdx (newSet 0)).num
              = (c.sets.getD setIdx (newSet 0)).capacity
          · rw [addToSet_evictCase h0 hc hm']
          · rw [addToSet_missSpaceCase h0 hc hm']
    · rw [hget]
      exact addToSet_frame r c.opCounter _ db t b hnum hlen huniq
  · have hnoop : (accessCache r c setIdx db t b).2.sets.getD setIdx (newSet 0)
        = c.sets.getD setIdx (newSet 0) := by
      show (c.sets.set setIdx _).getD setIdx (newSet 0) = _
      rw [List.set_eq_of_length_le (by omega)]
    exact ⟨rfl, rfl, hother, by rw [hnoop], ⟨0, fun j _ => by rw [hnoop]⟩⟩

/-- Witness for C8: a store hitting tag 4 in set 0 of a hand-built two-set
cache leaves the configuration, the other set, and the target set's
capacity unchanged. -/
theorem access_frame_spec_witness :
    (accessCache ⟨1, 3, 1, 1, 0⟩
        ⟨2, 2, 5, [⟨2, 2, [⟨1, 3, 0⟩, ⟨0, 4, 1⟩]⟩, ⟨1, 2, [⟨0, 9, 2⟩, ⟨0, 0, 0⟩]⟩]⟩
        0 1 4 0).2.s = 2
    ∧ (accessCache ⟨1, 3, 1, 1, 0⟩
        ⟨2, 2, 5, [⟨2, 2, [⟨1, 3, 0⟩, ⟨0, 4, 1⟩]⟩, ⟨1, 2, [⟨0, 9, 2⟩, ⟨0, 0, 0⟩]⟩]⟩
        0 1 4 0).2.E = 2
    ∧ (accessCache ⟨1, 3, 1, 1, 0⟩
        ⟨2, 2, 5, [⟨2, 2, [⟨1, 3, 0⟩, ⟨0, 4, 1⟩]⟩, ⟨1, 2, [⟨0, 9, 2⟩, ⟨0, 0, 0⟩]⟩]⟩
        0 1 4 0).2.sets.getD 1 (newSet 0) = ⟨1, 2, [⟨0, 9, 2⟩, ⟨0, 0, 0⟩]⟩
    ∧ ((accessCache ⟨1, 3, 1, 1, 0⟩
        ⟨2, 2, 5, [⟨2, 2, [⟨1, 3, 0⟩, ⟨0, 4, 1⟩]⟩, ⟨1, 2, [⟨0, 9, 2⟩, ⟨0, 0, 0⟩]⟩]⟩
        0 1 4 0).2.sets.getD 0 (newSet 0)).capacity = 2 := by
  have h := access_frame_spec ⟨1, 3, 1, 1, 0⟩
    ⟨2, 2, 5, [⟨2, 2, [⟨1, 3, 0⟩, ⟨0, 4, 1⟩]⟩, ⟨1, 2, [⟨0, 9, 2⟩, ⟨0, 0, 0⟩]⟩]⟩
    0 1 4 0 (by decide) (by decide)
    (by
      intro i j hi hj h1 h2
      have hi2 : i < 2 := hi
      have hj2 : j < 2 := hj
      interval_cases i <;> interval_cases j <;>
        first
          | rfl
          | (exfalso; revert h1 h2; decide))
  exact ⟨h.1, h.2.1, h.2.2.1 1 (by decide), h.2.2.2.1⟩

/-! ### Claim C6: handling of operation codes other than L and S -/

/-- Counterexample to C6 as stated: a record with operation code `M`
(neither `L` nor `S`) is *not* ignored — processing it on a fresh cache
changes the statistics (`misses` goes from 0 to 1). -/
theorem non_LS_record_not_ignored :
    ('M' ≠ 'L' ∧ 'M' ≠ 'S')
    ∧ (processRecord initStats (createCache 0 1) 'M' 0 0 0).1.misses = 1
    ∧ initStats.misses = 0 := by
  exact ⟨by decide, by decide, rfl⟩

/-- C6 amended: `main` distinguishes only `op = 'S'`; every record whose
operation code is not `S` — including codes other than `L` — is processed
as a load (dirty bit 0), not ignored. -/
theorem non_store_processed_as_load (r : Stats) (c : Cache) (op : Char)
    (address b s : Nat) (hop : op ≠ 'S') :
    processRecord r c op address b s
      = accessCache r c (setIndexOf address b s) 0 (tagOf address b s) b := by
  simp only [processRecord]
  rw [if_neg hop]

/-- Witness for the amended C6 at `op = 'M'`. -/
theorem non_store_processed_as_load_witness :
    processRecord initStats (createCache 0 1) 'M' 0 0 0
      = accessCache initStats (createCache 0 1) (setIndexOf 0 0 0) 0 (tagOf 0 0 0) 0 :=
  non_store_processed_as_load initStats (createCache 0 1) 'M' 0 0 0 (by decide)

end Csim
